import Mathlib

/-!
Shallow embedding of the rsync-csv pipeline (src/main.rs): a watcher that
debounces filesystem events for `.csv` files, classifies each file by its
header row against a registry loaded from template files, renames accepted
files with a timestamp suffix, writes a sidecar metadata file, groups the
files by destination table, and runs one rsync invocation per table,
deleting the local files only when the invocation succeeds.

External effects (filesystem reads, the clock, the `id` and `rsync`
commands) are parameters of the embedded functions: each IO outcome the
Rust code can observe is an explicit argument, so every function here is
pure and executable.
-/

namespace RsyncCsv

/-- Decidable equality for `Except`, so concrete pipeline outcomes can be
checked by `decide`. -/
instance {ε α : Type} [DecidableEq ε] [DecidableEq α] : DecidableEq (Except ε α) := fun x y =>
  match x, y with
  | .ok a, .ok b => if h : a = b then .isTrue (by rw [h]) else .isFalse (by simp [h])
  | .error a, .error b => if h : a = b then .isTrue (by rw [h]) else .isFalse (by simp [h])
  | .ok _, .error _ => .isFalse (by simp)
  | .error _, .ok _ => .isFalse (by simp)

/-- Models Rust `str::ends_with`, computed on the character lists so the
kernel can evaluate it. -/
def endsWithStr (s suf : String) : Bool :=
  suf.toList.isSuffixOf s.toList

/-- Models Rust `str::strip_suffix`: `some` of the string with the suffix
removed when it ends with the suffix, `none` otherwise. -/
def stripSuffixStr (suf s : String) : Option String :=
  if endsWithStr s suf then some (s.dropRight suf.length) else none

/-- Models `s.trim_end_matches(",")` for the one-character pattern `","`:
every trailing comma is removed, not just one. -/
def trimEndCommas (s : String) : String :=
  String.mk ((s.toList.reverse.dropWhile (fun c => c = ',')).reverse)

/-- Index of the last occurrence of `c` in `cs`, if any. -/
def lastIndexOfChar (c : Char) (cs : List Char) : Option Nat :=
  ((List.range cs.length).filter (fun i => cs.getD i ' ' = c)).getLast?

/-- Splits a file name at its last dot, provided that dot is not the
leading character; models how Rust `Path::file_stem` / `Path::extension`
divide a file name (a name such as `".csv"` has no extension). -/
def lastDotSplit (name : String) : Option (String × String) :=
  match lastIndexOfChar '.' name.toList with
  | none => none
  | some 0 => none
  | some i => some (String.mk (name.toList.take i), String.mk (name.toList.drop (i + 1)))

/-- Splitting a character list on a separator character; agrees with
`str::split` / `String::splitOn` for a one-character separator, and is
structurally recursive so that concrete paths evaluate in the kernel. -/
def splitOnChar (c : Char) : List Char → List (List Char)
  | [] => [[]]
  | x :: rest =>
    match splitOnChar c rest with
    | [] => [[]]
    | h :: t => if x = c then [] :: h :: t else (x :: h) :: t

/-- A path's `/`-separated components. -/
def splitPath (p : String) : List String :=
  (splitOnChar '/' p.toList).map String.mk

/-- The whitespace classes Rust `str::trim` removes, restricted to the
ASCII whitespace that occurs in template files. -/
def isWhitespaceChar (c : Char) : Bool :=
  c = ' ' || c = '\t' || c = '\n' || c = '\r'

/-- Models `str::trim` (over ASCII whitespace). -/
def trimAscii (s : String) : String :=
  String.mk (((s.toList.dropWhile isWhitespaceChar).reverse.dropWhile isWhitespaceChar).reverse)

/-- Models `Path::file_name` (as a UTF-8 string): the last nonempty
`/`-separated component of the path. -/
def fileName? (p : String) : Option String :=
  ((splitPath p).filter (fun c => c ≠ "")).getLast?

/-- `file_name().unwrap()` at the call sites where the pipeline has a real
file path in hand. -/
def fileNameOf (p : String) : String :=
  (fileName? p).getD ""

/-- Models `Path::file_stem` (as a string). -/
def fileStem? (p : String) : Option String :=
  (fileName? p).map (fun n =>
    match lastDotSplit n with
    | some (s, _) => s
    | none => n)

/-- Models `Path::extension` (as a string). -/
def fileExtension? (p : String) : Option String :=
  (fileName? p).bind (fun n => (lastDotSplit n).map (fun q => q.2))

/-- Models `PathBuf::with_file_name`: replace the last component. -/
def withFileName (p newName : String) : String :=
  let comps := splitPath p
  String.intercalate "/" comps.dropLast ++ (if comps.length ≤ 1 then "" else "/") ++ newName

/-- Models `Path::parent` (approximating corner cases of pure-root and
empty paths, which the pipeline never produces): the path with its last
component removed. -/
def parentDir? (p : String) : Option String :=
  let comps := splitPath p
  if comps.length ≤ 1 then (if p = "" then none else some "")
  else some (String.intercalate "/" comps.dropLast)

/-- Models `PathBuf::from(dest_dir).join(table_name).display()` for the
relative table names the pipeline uses. -/
def joinPath (d t : String) : String :=
  if endsWithStr d "/" then d ++ t else d ++ "/" ++ t

/-- Association list looked up by first matching key. -/
def lookupTable {α : Type} : List (String × α) → String → Option α
  | [], _ => none
  | (k, v) :: rest, t => if k = t then some v else lookupTable rest t

/-- Models `Vec::iter().position(|x| x == y)`. -/
def positionOf : List String → String → Option Nat
  | [], _ => none
  | y :: rest, x => if y = x then some 0 else (positionOf rest x).map (fun n => n + 1)

/-! ## Header Registry (`load_headers`) -/

/-- The header registry `HashMap<String, String>` from header signature to
table name, modelled as an association list with the newest insertion in
front, so that `lookupTable` realises `HashMap::insert`'s
last-write-wins overwrite semantics. -/
abbrev Registry := List (String × String)

/-- One entry of `read_dir(template_dir)`: `stem` is
`path.file_stem().and_then(|s| s.to_str())` (`none` covers both the
missing-file-name and the non-UTF-8 arm, each of which only logs and
skips), `content` is what `read_to_string` yields for the file. -/
structure TemplateFile where
  stem : Option String
  content : String
deriving DecidableEq, Repr

/-- The loop body of `load_headers`, accumulating into `acc`. A `none`
result models the `strip_suffix("_template").unwrap()` panic on a file
stem that does not end in `_template`. -/
def load_headers_from (acc : Registry) : List TemplateFile → Option Registry
  | [] => some acc
  | f :: rest =>
    match f.stem with
    | none => load_headers_from acc rest
    | some v =>
      match stripSuffixStr "_template" v with
      | none => none
      | some table => load_headers_from ((trimAscii f.content, table) :: acc) rest

/-- `load_headers`: build the header-signature → table-name registry from
the template directory's files. -/
def load_headers (files : List TemplateFile) : Option Registry :=
  load_headers_from [] files

/-! ## Classifier (`match_col_headers`) -/

/-- `match_col_headers`. `firstLineOf` models the filesystem at
classification time: `none` when `Path::exists` is false, `some l` when
the file exists and its first line reads `l` (the empty string for an
empty file, matching `lines().next().unwrap_or(Ok(String::new()))`).
Both the no-such-file case and the no-match case fall through to
`Ok(String::new())`, i.e. the empty table name. -/
def match_col_headers (firstLineOf : String → Option String) (registry : Registry)
    (csv_path : String) : String :=
  match firstLineOf csv_path with
  | none => ""
  | some line =>
    match lookupTable registry (trimEndCommas line) with
    | some table => table
    | none => ""

/-! ## Metadata Generator (`suffix_file_name`, `create_metadata_file`) -/

/-- `suffix_file_name` minus the actual `fs::rename` call (whose outcome
the pipeline layer carries as an explicit environment result): the renamed
path `stem ++ "_" ++ timestamp ++ "." ++ ext` placed next to the source.
`none` models the `file_stem().unwrap()` / `extension().unwrap()` panics,
unreachable for the `.csv` paths the watcher admits. -/
def suffix_file_name (src_file tsSuffix : String) : Option String := do
  let stem ← fileStem? src_file
  let ext ← fileExtension? src_file
  return withFileName src_file (stem ++ "_" ++ tsSuffix ++ "." ++ ext)

/-- Outcome of the `id -u -n <uid>` command in `create_metadata_file`. -/
inductive IdCmdResult where
  | ok (stdout : String)
  | failedStatus
  | launchErr (msg : String)
deriving DecidableEq, Repr

/-- The username block of `create_metadata_file`: on a successful run the
stdout loses its trailing newline via `strip_suffix("\n").unwrap()`
(`none` models that unwrap's panic on output without a newline); a
non-zero exit or a launch error leaves the username empty. -/
def resolve_username : IdCmdResult → Option String
  | .ok out => stripSuffixStr "\n" out
  | .failedStatus => some ""
  | .launchErr _ => some ""

/-- `create_metadata_file` on its success path (`fs::metadata`, file
creation and the write succeeding; failures of those are carried by the
pipeline environment): `upload_time` is the chrono-formatted creation
time of `src_file`, and the result is the metadata file's path
`<src_file>.metadata` together with the single line written into it,
`<upload_time>,<username>,<basename of src_file>`. -/
def create_metadata_file (upload_time : String) (idr : IdCmdResult) (src_file : String) :
    Option (String × String) :=
  (resolve_username idr).map (fun username =>
    (src_file ++ ".metadata", upload_time ++ "," ++ username ++ "," ++ fileNameOf src_file))

/-! ## Change Watcher and Debounce Aggregator (`watch_for_file_changes`) -/

/-- The event kinds the watcher distinguishes: `Create(CreateKind::File)`,
`Modify(ModifyKind::Data(DataChange::Any))`, and everything else. -/
inductive EvKind where
  | createFile
  | modifyData
  | other
deriving DecidableEq, Repr

/-- A `notify::Event`: a kind and a path list (notify events carry at
least one path; the code only ever reads `paths[0]`). -/
structure NotifyEvent where
  kind : EvKind
  paths : List String
deriving DecidableEq, Repr

/-- The first path of an event, `event.paths[0]`. -/
def NotifyEvent.firstPath (e : NotifyEvent) : String :=
  e.paths.headD ""

def kindAccepted : EvKind → Bool
  | .createFile => true
  | .modifyData => true
  | .other => false

/-- The buffering filter of the watch loop: accepted kind and
`paths[0].extension() == Some("csv")`. -/
def isCsvEvent (e : NotifyEvent) : Bool :=
  kindAccepted e.kind && (fileExtension? e.firstPath == some "csv")

/-- One `rx.try_recv()` outcome: a delivered event, a delivered watch
error (logged), an empty channel, or a receive error (logged). -/
inductive RecvResult where
  | gotEvent (e : NotifyEvent)
  | watchError (msg : String)
  | chanEmpty
  | recvError (msg : String)
deriving DecidableEq, Repr

/-- The mutable state of the watch loop: the pending event buffer
`event_vec` and `last_event_time` (an absolute timestamp in seconds,
standing in for the `Instant`). -/
structure WatchState where
  eventVec : List NotifyEvent
  lastEventTime : Nat
deriving DecidableEq, Repr

/-- The receive half of one loop iteration: a delivered CSV event is
appended to the buffer and refreshes `last_event_time` to `now`; every
other outcome only logs. -/
def receive_step (s : WatchState) (r : RecvResult) (now : Nat) : WatchState :=
  match r with
  | .gotEvent e =>
    if isCsvEvent e then { eventVec := s.eventVec ++ [e], lastEventTime := now } else s
  | _ => s

/-- One full iteration of the watch loop at time `now`: process the
receive outcome, then, when the elapsed time since the last event
strictly exceeds `wait` and the buffer is non-empty, call the handler
(`handle_csv_file_event`); `Ok` clears the buffer, `Err` only logs and
leaves it. Returns the new state and whether a dispatch was attempted. -/
def watch_tick (wait : Nat) (handler : List NotifyEvent → Except String Unit)
    (s : WatchState) (r : RecvResult) (now : Nat) : WatchState × Bool :=
  let s1 := receive_step s r now
  if now - s1.lastEventTime > wait && !s1.eventVec.isEmpty then
    match handler s1.eventVec with
    | .ok _ => ({ s1 with eventVec := [] }, true)
    | .error _ => (s1, true)
  else (s1, false)

/-! ## Dispatcher grouping (`handle_csv_file_event`) -/

/-- The per-table entry of the rsync hashmap: the inner
`HashMap<String, Vec<String>>` only ever holds the two keys
`"src_files"` and `"metadata_files"`, modelled as the two fields. -/
structure TableEntry where
  src_files : List String
  metadata_files : List String
deriving DecidableEq, Repr

/-- The outer rsync hashmap `table_name → TableEntry`, as an association
list in insertion order (keys are unique by construction of
`pushFile`). -/
abbrev RsyncMap := List (String × TableEntry)

/-- `entry(table).or_insert(..)` followed by pushing `src` and `md` onto
the two inner vectors. -/
def pushFile : RsyncMap → String → String → String → RsyncMap
  | [], table, src, md => [(table, ⟨[src], [md]⟩)]
  | (t, e) :: rest, table, src, md =>
    if t = table then
      (t, ⟨e.src_files ++ [src], e.metadata_files ++ [md]⟩) :: rest
    else
      (t, e) :: pushFile rest table src md

/-- The per-path IO outcomes `handle_csv_file_event` observes:
classification (`match_col_headers`, an `io::Result<String>`), the rename
(`suffix_file_name`, returning the renamed path), and the sidecar write
(`create_metadata_file`, returning the metadata path). -/
structure PipelineEnv where
  classify : String → Except String String
  rename : String → Except String String
  writeMetadata : String → Except String String

/-- Trace of the externally visible per-file effects of
`handle_csv_file_event`'s loop. -/
inductive PipeAction where
  | renamed (orig renamedTo : String)
  | metadataWritten (path : String)
  | metadataFailed (err : String)
deriving DecidableEq, Repr

/-- The event loop of `handle_csv_file_event`, folding the pending events
into the rsync hashmap. An empty table name (no match or vanished file)
skips the event; a classification error is logged and skips the event; a
rename failure propagates immediately through the `?` operator, aborting
the whole handler; a metadata failure is logged and recorded as an empty
metadata path. -/
def process_events (env : PipelineEnv) :
    List NotifyEvent → RsyncMap → List PipeAction → Except String (RsyncMap × List PipeAction)
  | [], m, tr => .ok (m, tr)
  | e :: rest, m, tr =>
    match env.classify e.firstPath with
    | .ok table =>
      if table = "" then
        process_events env rest m tr
      else
        match env.rename e.firstPath with
        | .error err => .error err
        | .ok renamed =>
          match env.writeMetadata renamed with
          | .ok mdPath =>
            process_events env rest (pushFile m table renamed mdPath)
              (tr ++ [.renamed e.firstPath renamed, .metadataWritten mdPath])
          | .error err =>
            process_events env rest (pushFile m table renamed "")
              (tr ++ [.renamed e.firstPath renamed, .metadataFailed err])
    | .error _ => process_events env rest m tr

/-! ## Transfer Dispatcher (`run_rsync`) -/

/-- The `--rsync-path` argument built for a table. -/
def mkdir_command (dest_dir table : String) : String :=
  "\"mkdir -p \"" ++ joinPath dest_dir table ++ "\" && rsync\""

/-- The full shell command run for one table's batch. -/
def rsync_command (dest_user dest_host dest_dir table : String)
    (src_files metadata_files : List String) : String :=
  "rsync -aLvz --partial-dir=tmp --rsync-path=" ++ mkdir_command dest_dir table ++ " " ++
  String.intercalate " " src_files ++ " " ++ String.intercalate " " metadata_files ++ " " ++
  dest_user ++ "@" ++ dest_host ++ ":" ++ joinPath dest_dir table

/-- Outcome of `Command::new("sh").arg("-c").arg(cmd).output()` for one
table's rsync invocation: exit success, exit failure with stderr, or a
failure to launch the command at all. -/
inductive CmdOutcome where
  | success
  | failed (stderr : String)
  | launchError (msg : String)
deriving DecidableEq, Repr

/-- The externally visible actions of `run_rsync`. -/
inductive RsyncAction where
  | invoke (table : String) (cmd : String)
  | deleteFile (path : String)
  | logStatus (dir msg : String)
deriving DecidableEq, Repr

/-- `metadata_files[src_files.iter().position(|x| x == src_file).unwrap()]`:
the sidecar paired with a source file by position of first occurrence. -/
def pairedMetadata (src_files metadata_files : List String) (s : String) : String :=
  match positionOf src_files s with
  | some i => metadata_files.getD i ""
  | none => ""

/-- The body of `run_rsync`'s per-table loop: issue the invocation, then
on success delete each source file and its positionally paired sidecar
and log one success line per source file; on exit failure log one failure
line per source file carrying rsync's stderr; on a launch error only log
to the operational log (no status-log entries, no deletions). -/
def tableActions (dest_user dest_host dest_dir : String) (exec : String → CmdOutcome)
    (t : String) (e : TableEntry) : List RsyncAction :=
  RsyncAction.invoke t (rsync_command dest_user dest_host dest_dir t e.src_files e.metadata_files) ::
  match exec t with
  | .success =>
    e.src_files.flatMap (fun s =>
      [RsyncAction.deleteFile s,
       RsyncAction.deleteFile (pairedMetadata e.src_files e.metadata_files s),
       RsyncAction.logStatus ((parentDir? s).getD "")
         ("Upload succeeded! File: " ++ fileNameOf s)])
  | .failed err =>
    e.src_files.map (fun s =>
      RsyncAction.logStatus ((parentDir? s).getD "")
        ("Upload failed! File: " ++ fileNameOf s ++ " Reason: " ++ err))
  | .launchError _ => []

/-- `run_rsync`: one invocation per table of the rsync hashmap. `exec`
gives the outcome of the shell invocation for each table's command. -/
def run_rsync (exec : String → CmdOutcome) (m : RsyncMap)
    (dest_user dest_host dest_dir : String) : List RsyncAction :=
  m.flatMap (fun p => tableActions dest_user dest_host dest_dir exec p.1 p.2)

/-- `handle_csv_file_event`: fold the batch into table groups, then run
rsync per table. The rename `?` makes the whole handler return `Err`. -/
def handle_csv_file_event (env : PipelineEnv) (exec : String → CmdOutcome)
    (dest_user dest_host dest_dir : String) (events : List NotifyEvent) :
    Except String (RsyncMap × List PipeAction × List RsyncAction) :=
  match process_events env events [] [] with
  | .error e => .error e
  | .ok (m, tr) => .ok (m, tr, run_rsync exec m dest_user dest_host dest_dir)

/-- The handler as the watch loop sees it (only `Ok` vs `Err` matters for
the buffer). -/
def watchHandler (env : PipelineEnv) (exec : String → CmdOutcome)
    (dest_user dest_host dest_dir : String) (events : List NotifyEvent) :
    Except String Unit :=
  (handle_csv_file_event env exec dest_user dest_host dest_dir events).map (fun _ => ())

/-! ## Derived views of the grouping loop -/

/-- The accepted-file view of one event under an environment: `some
(table, renamed path, metadata path)` when the event is classified to a
non-empty table and its rename succeeds (a metadata failure records the
empty metadata path), `none` otherwise. -/
def acceptedEntry (env : PipelineEnv) (e : NotifyEvent) : Option (String × String × String) :=
  match env.classify e.firstPath with
  | .ok table =>
    if table = "" then none
    else
      match env.rename e.firstPath with
      | .ok renamed =>
        match env.writeMetadata renamed with
        | .ok md => some (table, renamed, md)
        | .error _ => some (table, renamed, "")
      | .error _ => none
  | .error _ => none

/-- All accepted entries of a batch, in event order. -/
def entsOf (env : PipelineEnv) (events : List NotifyEvent) : List (String × String × String) :=
  events.filterMap (acceptedEntry env)

/-- The source files an entry list yields for a table, in order. -/
def tableSrc (ents : List (String × String × String)) (t : String) : List String :=
  (ents.filter (fun x => x.1 == t)).map (fun x => x.2.1)

/-- The metadata files an entry list yields for a table, in order. -/
def tableMd (ents : List (String × String × String)) (t : String) : List String :=
  (ents.filter (fun x => x.1 == t)).map (fun x => x.2.2)

/-- The entry a map holds for a table, defaulting to the empty entry. -/
def lookupE (m : RsyncMap) (t : String) : TableEntry :=
  (lookupTable m t).getD ⟨[], []⟩

/-- The key list of the rsync map, in insertion order. -/
def keysOf (m : RsyncMap) : List String :=
  m.map Prod.fst

/-- The new-key accumulator realised by `pushFile` on the key list. -/
def addKey (ks : List String) (t : String) : List String :=
  if t ∈ ks then ks else ks ++ [t]

/-- Recognises the shell-invocation action of `run_rsync`. -/
def isInvoke : RsyncAction → Bool
  | .invoke _ _ => true
  | _ => false

/-- An event the classifier accepts: classification returns a non-empty
table name. -/
def isAcceptedEvent (env : PipelineEnv) (e : NotifyEvent) : Prop :=
  ∃ t, env.classify e.firstPath = .ok t ∧ t ≠ ""

/-- An event that cannot hit the rename-failure abort: whenever it is
accepted, its rename succeeds. -/
def noRenameAbort (env : PipelineEnv) (e : NotifyEvent) : Prop :=
  ∀ t, env.classify e.firstPath = .ok t → t ≠ "" → ∃ r, env.rename e.firstPath = .ok r

/-- Written from the specification's words, for comparison with the
code's `trimEndCommas`: "strip one trailing delimiter (comma) from it if
present". -/
def specStripOneTrailingDelimiter (s : String) : String :=
  if endsWithStr s "," then s.dropRight 1 else s

/-! ### Concrete fixtures used by witnesses -/

/-- A concrete environment: three classifiable paths over two tables, all
renames succeeding (appending `.r`), the sidecar write failing for the
renamed `b.csv` only. -/
def wEnv : PipelineEnv :=
  ⟨fun p => .ok (if p = "/d/a.csv" then "t1" else if p = "/d/b.csv" then "t2"
      else if p = "/d/c.csv" then "t1" else ""),
   fun p => .ok (p ++ ".r"),
   fun r => if r = "/d/b.csv.r" then .error "mdfail" else .ok (r ++ ".metadata")⟩

/-- A concrete batch: three CSV events over the two tables of `wEnv`. -/
def wEvents : List NotifyEvent :=
  [⟨.createFile, ["/d/a.csv"]⟩, ⟨.createFile, ["/d/b.csv"]⟩, ⟨.modifyData, ["/d/c.csv"]⟩]

/-- A concrete rsync outcome: table `t1` succeeds, `t2` fails. -/
def wExec : String → CmdOutcome :=
  fun t => if t = "t1" then .success else .failed "io err"

/-- The rsync map `process_events wEnv wEvents [] []` produces. -/
def wMap : RsyncMap :=
  [("t1", ⟨["/d/a.csv.r", "/d/c.csv.r"], ["/d/a.csv.r.metadata", "/d/c.csv.r.metadata"]⟩),
   ("t2", ⟨["/d/b.csv.r"], [""]⟩)]

/-- An environment whose rename fails for `/d/a.csv` only. -/
def wEnvRenameFail : PipelineEnv :=
  ⟨fun _ => .ok "t",
   fun p => if p = "/d/a.csv" then .error "rename failed" else .ok (p ++ ".r"),
   fun r => .ok (r ++ ".metadata")⟩

/-- The action trace `process_events wEnv wEvents [] []` produces. -/
def wTrace : List PipeAction :=
  [.renamed "/d/a.csv" "/d/a.csv.r", .metadataWritten "/d/a.csv.r.metadata",
   .renamed "/d/b.csv" "/d/b.csv.r", .metadataFailed "mdfail",
   .renamed "/d/c.csv" "/d/c.csv.r", .metadataWritten "/d/c.csv.r.metadata"]

theorem lookupE_pushFile_self (m : RsyncMap) (t s d : String) :
    lookupE (pushFile m t s d) t =
      ⟨(lookupE m t).src_files ++ [s], (lookupE m t).metadata_files ++ [d]⟩ := by
  induction m with
  | nil => simp [pushFile, lookupE, lookupTable]
  | cons p rest ih =>
    obtain ⟨k, e⟩ := p
    by_cases hk : k = t
    · subst hk
      simp [pushFile, lookupE, lookupTable]
    · simp only [pushFile, if_neg hk]
      simpa [lookupE, lookupTable, hk] using ih

theorem lookupTable_pushFile_ne (m : RsyncMap) (t s d t' : String) (h : t' ≠ t) :
    lookupTable (pushFile m t s d) t' = lookupTable m t' := by
  induction m with
  | nil => simp [pushFile, lookupTable, Ne.symm h]
  | cons p rest ih =>
    obtain ⟨k, e⟩ := p
    by_cases hk : k = t
    · subst hk
      simp [pushFile, lookupTable, Ne.symm h]
    · by_cases hk' : k = t'
      · subst hk'
        simp [pushFile, if_neg hk, lookupTable]
      · simp [pushFile, if_neg hk, lookupTable, hk', ih]

theorem keysOf_pushFile (m : RsyncMap) (t s d : String) :
    keysOf (pushFile m t s d) = addKey (keysOf m) t := by
  induction m with
  | nil => simp [pushFile, keysOf, addKey]
  | cons p rest ih =>
    obtain ⟨k, e⟩ := p
    by_cases hk : k = t
    · subst hk
      simp [pushFile, keysOf, addKey]
    · simp only [pushFile, if_neg hk]
      have h1 : keysOf ((k, e) :: pushFile rest t s d) = k :: keysOf (pushFile rest t s d) := rfl
      rw [h1, ih]
      simp only [addKey, keysOf, List.map_cons, List.mem_cons]
      by_cases hm : t ∈ List.map Prod.fst rest
      · simp [hm]
      · simp [hm, Ne.symm hk]

theorem mem_addKey (ks : List String) (t x : String) :
    x ∈ addKey ks t ↔ x ∈ ks ∨ x = t := by
  unfold addKey
  by_cases h : t ∈ ks
  · simp only [if_pos h]
    constructor
    · exact Or.inl
    · rintro (hx | rfl) <;> [exact hx; exact h]
  · simp [if_neg h]

theorem nodup_addKey (ks : List String) (t : String) (h : ks.Nodup) :
    (addKey ks t).Nodup := by
  unfold addKey
  by_cases hm : t ∈ ks
  · simpa [if_pos hm]
  · simpa [if_neg hm, List.nodup_append] using ⟨h, hm⟩

theorem mem_foldl_addKey (ts : List String) : ∀ ks x,
    x ∈ ts.foldl addKey ks ↔ x ∈ ks ∨ x ∈ ts := by
  induction ts with
  | nil => simp
  | cons t rest ih =>
    intro ks x
    simp only [List.foldl_cons, ih, mem_addKey, List.mem_cons]
    tauto

theorem nodup_foldl_addKey (ts : List String) : ∀ ks, ks.Nodup →
    (ts.foldl addKey ks).Nodup := by
  induction ts with
  | nil => intro ks h; exact h
  | cons t rest ih =>
    intro ks h
    exact ih _ (nodup_addKey ks t h)

/-- Per-table characterisation of the grouping loop: when
`handle_csv_file_event`'s fold completes without a rename error, the
entry a table holds afterwards is whatever it held before extended, in
order, by exactly the accepted files of that table. -/
theorem process_events_lookup (env : PipelineEnv) (events : List NotifyEvent) :
    ∀ m tr m' tr', process_events env events m tr = .ok (m', tr') →
    ∀ t, lookupE m' t =
      ⟨(lookupE m t).src_files ++ tableSrc (entsOf env events) t,
       (lookupE m t).metadata_files ++ tableMd (entsOf env events) t⟩ := by
  induction events with
  | nil =>
    intro m tr m' tr' h t
    simp only [process_events, Except.ok.injEq, Prod.mk.injEq] at h
    obtain ⟨rfl, rfl⟩ := h
    simp [entsOf, tableSrc, tableMd]
  | cons e rest ih =>
    intro m tr m' tr' h t
    simp only [process_events] at h
    cases hc : env.classify e.firstPath with
    | error err =>
      simp only [hc] at h
      have := ih m tr m' tr' h t
      simpa [entsOf, acceptedEntry, hc] using this
    | ok table =>
      simp only [hc] at h
      by_cases htab : table = ""
      · rw [if_pos htab] at h
        have := ih m tr m' tr' h t
        simpa [entsOf, acceptedEntry, hc, htab] using this
      · rw [if_neg htab] at h
        cases hr : env.rename e.firstPath with
        | error err => simp only [hr] at h; exact absurd h (by simp)
        | ok renamed =>
          simp only [hr] at h
          cases hw : env.writeMetadata renamed with
          | ok md =>
            simp only [hw] at h
            have := ih _ _ m' tr' h t
            rw [this]
            by_cases ht : table = t
            · subst ht
              simp [entsOf, acceptedEntry, hc, htab, hr, hw, tableSrc, tableMd,
                lookupE_pushFile_self]
            · have hlk := lookupTable_pushFile_ne m table renamed md t (Ne.symm ht)
              simp [entsOf, acceptedEntry, hc, htab, hr, hw, tableSrc, tableMd,
                lookupE, hlk, ht]
          | error err =>
            simp only [hw] at h
            have := ih _ _ m' tr' h t
            rw [this]
            by_cases ht : table = t
            · subst ht
              simp [entsOf, acceptedEntry, hc, htab, hr, hw, tableSrc, tableMd,
                lookupE_pushFile_self]
            · have hlk := lookupTable_pushFile_ne m table renamed "" t (Ne.symm ht)
              simp [entsOf, acceptedEntry, hc, htab, hr, hw, tableSrc, tableMd,
                lookupE, hlk, ht]

/-- Key-list characterisation of the grouping loop: the key list grows by
first occurrence of each accepted table. -/
theorem process_events_keys (env : PipelineEnv) (events : List NotifyEvent) :
    ∀ m tr m' tr', process_events env events m tr = .ok (m', tr') →
    keysOf m' = ((entsOf env events).map (fun x => x.1)).foldl addKey (keysOf m) := by
  induction events with
  | nil =>
    intro m tr m' tr' h
    simp only [process_events, Except.ok.injEq, Prod.mk.injEq] at h
    obtain ⟨rfl, rfl⟩ := h
    simp [entsOf]
  | cons e rest ih =>
    intro m tr m' tr' h
    simp only [process_events] at h
    cases hc : env.classify e.firstPath with
    | error err =>
      simp only [hc] at h
      simpa [entsOf, acceptedEntry, hc] using ih m tr m' tr' h
    | ok table =>
      simp only [hc] at h
      by_cases htab : table = ""
      · rw [if_pos htab] at h
        simpa [entsOf, acceptedEntry, hc, htab] using ih m tr m' tr' h
      · rw [if_neg htab] at h
        cases hr : env.rename e.firstPath with
        | error err => simp only [hr] at h; exact absurd h (by simp)
        | ok renamed =>
          simp only [hr] at h
          cases hw : env.writeMetadata renamed with
          | ok md =>
            simp only [hw] at h
            have := ih _ _ m' tr' h
            simpa [entsOf, acceptedEntry, hc, htab, hr, hw, keysOf_pushFile] using this
          | error err =>
            simp only [hw] at h
            have := ih _ _ m' tr' h
            simpa [entsOf, acceptedEntry, hc, htab, hr, hw, keysOf_pushFile] using this

theorem lookupTable_eq_some_of_mem {α : Type} (m : List (String × α)) (t : String) (e : α)
    (hnd : (m.map Prod.fst).Nodup) (hm : (t, e) ∈ m) : lookupTable m t = some e := by
  induction m with
  | nil => simp at hm
  | cons p rest ih =>
    obtain ⟨k, v⟩ := p
    simp only [List.map_cons, List.nodup_cons] at hnd
    rcases List.mem_cons.mp hm with heq | hmem
    · injection heq with h1 h2
      subst h1; subst h2
      simp [lookupTable]
    · have hk : k ≠ t := by
        rintro rfl
        exact hnd.1 (List.mem_map_of_mem Prod.fst hmem)
      simp [lookupTable, hk, ih hnd.2 hmem]

theorem mem_of_lookupTable_eq_some {α : Type} :
    ∀ (m : List (String × α)) (t : String) (e : α),
    lookupTable m t = some e → (t, e) ∈ m := by
  intro m
  induction m with
  | nil => intro t e h; simp [lookupTable] at h
  | cons p rest ih =>
    intro t e h
    obtain ⟨k, v⟩ := p
    by_cases hk : k = t
    · subst hk
      simp [lookupTable] at h
      subst h
      exact List.mem_cons_self _ _
    · simp only [lookupTable, if_neg hk] at h
      exact List.mem_cons_of_mem _ (ih t e h)

theorem lookupTable_eq_none_iff {α : Type} (m : List (String × α)) (t : String) :
    lookupTable m t = none ↔ t ∉ m.map Prod.fst := by
  induction m with
  | nil => simp [lookupTable]
  | cons p rest ih =>
    obtain ⟨k, v⟩ := p
    by_cases hk : k = t
    · subst hk
      simp [lookupTable]
    · simp [lookupTable, hk, ih, Ne.symm hk]

theorem positionOf_lt_length (l : List String) (s : String) (hs : s ∈ l) :
    ∃ i, positionOf l s = some i ∧ i < l.length := by
  induction l with
  | nil => simp at hs
  | cons y rest ih =>
    by_cases hy : y = s
    · exact ⟨0, by simp [positionOf, hy], by simp⟩
    · have hs2 : s ∈ rest := by
        rcases List.mem_cons.mp hs with h | h
        · exact absurd h.symm hy
        · exact h
      obtain ⟨i, h1, h2⟩ := ih hs2
      exact ⟨i + 1, by simp [positionOf, hy, h1], by simpa using h2⟩

theorem positionOf_getD (l : List String) : ∀ i, l.Nodup → i < l.length →
    positionOf l (l.getD i "") = some i := by
  induction l with
  | nil => intro i _ h; simp at h
  | cons y rest ih =>
    intro i hnd hi
    match i with
    | 0 => simp [positionOf, List.getD_cons_zero]
    | Nat.succ j =>
      have hj : j < rest.length := by simpa using hi
      have hx : rest.getD j "" ∈ rest := by
        rw [List.getD_eq_getElem rest "" hj]
        exact List.getElem_mem hj
      have hy : y ≠ rest.getD j "" := by
        intro he
        exact (List.nodup_cons.mp hnd).1 (he ▸ hx)
      have hgd : (y :: rest).getD (j + 1) "" = rest.getD j "" := List.getD_cons_succ
      rw [hgd]
      show (if y = rest.getD j "" then some 0
        else (positionOf rest (rest.getD j "")).map (fun n => n + 1)) = some (j + 1)
      rw [if_neg hy, ih j (List.nodup_cons.mp hnd).2 hj]
      rfl

theorem pairedMetadata_mem (src md : List String) (hlen : md.length = src.length)
    (s : String) (hs : s ∈ src) : pairedMetadata src md s ∈ md := by
  obtain ⟨i, h1, h2⟩ := positionOf_lt_length src s hs
  have hi : i < md.length := hlen ▸ h2
  unfold pairedMetadata
  rw [h1]
  show md.getD i "" ∈ md
  rw [List.getD_eq_getElem md "" hi]
  exact List.getElem_mem hi

theorem exists_pairedMetadata_eq (src md : List String) (hnd : src.Nodup)
    (hlen : md.length = src.length) (f : String) (hf : f ∈ md) :
    ∃ s ∈ src, pairedMetadata src md s = f := by
  obtain ⟨i, hi, hif⟩ := List.mem_iff_getElem.mp hf
  have hi2 : i < src.length := hlen ▸ hi
  refine ⟨src.getD i "", ?_, ?_⟩
  · rw [List.getD_eq_getElem src "" hi2]
    exact List.getElem_mem hi2
  · unfold pairedMetadata
    rw [positionOf_getD src i hnd hi2]
    show md.getD i "" = f
    rw [List.getD_eq_getElem md "" hi]
    exact hif

/-- Partitioning: distributing a list of keyed entries over a duplicate-free
key list covering all entries is a permutation of the entries. -/
theorem flatMap_filterKey_perm (g : String × String × String → String) :
    ∀ (ks : List String) (ents : List (String × String × String)), ks.Nodup →
    (∀ x ∈ ents, x.1 ∈ ks) →
    List.Perm (ks.flatMap (fun t => (ents.filter (fun x => x.1 == t)).map g))
      (ents.map g) := by
  intro ks
  induction ks with
  | nil =>
    intro ents _ hmem
    cases ents with
    | nil => simp
    | cons a l => exact absurd (hmem a (by simp)) (by simp)
  | cons k ks ih =>
    intro ents hnd hmem
    have hnd2 := List.nodup_cons.mp hnd
    have hstep : ∀ t ∈ ks, (ents.filter (fun x => x.1 == t)).map g =
        ((ents.filter (fun x => !(x.1 == k))).filter (fun x => x.1 == t)).map g := by
      intro t ht
      have htk : t ≠ k := by
        rintro rfl
        exact hnd2.1 ht
      rw [List.filter_filter]
      refine congrArg _ (List.filter_congr ?_).symm
      intro a _
      by_cases hat : a.1 = t
      · simp [hat, htk]
      · simp [hat]
    have hmem2 : ∀ x ∈ ents.filter (fun x => !(x.1 == k)), x.1 ∈ ks := by
      intro x hx
      have hx2 := List.mem_filter.mp hx
      have hxk : x.1 ≠ k := by simpa using hx2.2
      rcases List.mem_cons.mp (hmem x hx2.1) with h | h
      · exact absurd h hxk
      · exact h
    have IH := ih (ents.filter (fun x => !(x.1 == k))) hnd2.2 hmem2
    have hmap : ks.flatMap (fun t => (ents.filter (fun x => x.1 == t)).map g) =
        ks.flatMap (fun t =>
          ((ents.filter (fun x => !(x.1 == k))).filter (fun x => x.1 == t)).map g) := by
      simp only [List.flatMap_def]
      exact congrArg List.flatten (List.map_congr_left hstep)
    rw [List.flatMap_cons, hmap]
    refine List.Perm.trans (List.Perm.append_left _ IH) ?_
    rw [← List.map_append]
    exact (List.filter_append_perm (fun x => x.1 == k) ents).map g

theorem countP_isInvoke_tableActions (du dh dd : String) (exec : String → CmdOutcome)
    (t : String) (e : TableEntry) :
    (tableActions du dh dd exec t e).countP isInvoke = 1 := by
  unfold tableActions
  rw [List.countP_cons_of_pos _ _ (by simp [isInvoke])]
  cases hex : exec t with
  | success =>
    rw [List.countP_eq_zero.mpr]
    intro a ha
    rw [List.mem_flatMap] at ha
    obtain ⟨s, -, hmem⟩ := ha
    simp only [List.mem_cons, List.not_mem_nil, or_false] at hmem
    rcases hmem with rfl | rfl | rfl <;> simp [isInvoke]
  | failed err =>
    rw [List.countP_eq_zero.mpr]
    intro a ha
    rw [List.mem_map] at ha
    obtain ⟨s, -, h⟩ := ha
    subst h
    simp [isInvoke]
  | launchError msg =>
    simp

theorem countP_isInvoke_run_rsync (exec : String → CmdOutcome) (m : RsyncMap)
    (du dh dd : String) :
    (run_rsync exec m du dh dd).countP isInvoke = m.length := by
  induction m with
  | nil => simp [run_rsync]
  | cons p rest ih =>
    show ((tableActions du dh dd exec p.1 p.2) ++ run_rsync exec rest du dh dd).countP isInvoke
      = rest.length + 1
    rw [List.countP_append, countP_isInvoke_tableActions, ih]
    omega

theorem invoke_mem_run_rsync (exec : String → CmdOutcome) (m : RsyncMap)
    (du dh dd t : String) (e : TableEntry) (hm : (t, e) ∈ m) :
    RsyncAction.invoke t (rsync_command du dh dd t e.src_files e.metadata_files) ∈
      run_rsync exec m du dh dd := by
  unfold run_rsync
  rw [List.mem_flatMap]
  exact ⟨(t, e), hm, by unfold tableActions; exact List.mem_cons_self _ _⟩

theorem deleteFile_mem_tableActions_iff (du dh dd : String) (exec : String → CmdOutcome)
    (t : String) (e : TableEntry) (f : String)
    (hnd : e.src_files.Nodup) (hlen : e.metadata_files.length = e.src_files.length) :
    (RsyncAction.deleteFile f ∈ tableActions du dh dd exec t e) ↔
      (exec t = .success ∧ (f ∈ e.src_files ∨ f ∈ e.metadata_files)) := by
  constructor
  · intro h
    unfold tableActions at h
    rcases List.mem_cons.mp h with h | h
    · exact absurd h (by simp)
    · cases hex : exec t with
      | success =>
        simp only [hex] at h
        rw [List.mem_flatMap] at h
        obtain ⟨s, hs, hmem⟩ := h
        refine ⟨rfl, ?_⟩
        simp only [List.mem_cons, List.not_mem_nil, or_false] at hmem
        rcases hmem with h1 | h1 | h1
        · exact Or.inl ((RsyncAction.deleteFile.inj h1) ▸ hs)
        · refine Or.inr ?_
          rw [RsyncAction.deleteFile.inj h1]
          exact pairedMetadata_mem e.src_files e.metadata_files hlen s hs
        · exact absurd h1 (by simp)
      | failed err =>
        simp only [hex] at h
        rw [List.mem_map] at h
        obtain ⟨s, -, h1⟩ := h
        exact absurd h1 (by simp)
      | launchError msg =>
        simp only [hex] at h
        exact absurd h (by simp)
  · rintro ⟨hsucc, hf⟩
    unfold tableActions
    refine List.mem_cons_of_mem _ ?_
    simp only [hsucc]
    rw [List.mem_flatMap]
    rcases hf with hf | hf
    · exact ⟨f, hf, by simp⟩
    · obtain ⟨s, hs, hps⟩ :=
        exists_pairedMetadata_eq e.src_files e.metadata_files hnd hlen f hf
      refine ⟨s, hs, ?_⟩
      rw [← hps]
      simp

/-- C1: within a dispatch cycle, a delete action is issued for a file (a
table batch's source file or sidecar) if and only if the rsync
invocation of a table whose batch holds that file reported exit success;
a failed invocation, or one that could not be launched, deletes nothing,
leaving every file of that table on disk under its renamed name. -/
theorem c1_files_deleted_iff_transfer_success (exec : String → CmdOutcome) (m : RsyncMap)
    (du dh dd : String)
    (hall : ∀ p ∈ m, p.2.src_files.Nodup ∧ p.2.metadata_files.length = p.2.src_files.length)
    (f : String) :
    (RsyncAction.deleteFile f ∈ run_rsync exec m du dh dd) ↔
      ∃ p ∈ m, exec p.1 = .success ∧ (f ∈ p.2.src_files ∨ f ∈ p.2.metadata_files) := by
  unfold run_rsync
  rw [List.mem_flatMap]
  constructor
  · rintro ⟨p, hp, hmem⟩
    obtain ⟨hnd, hlen⟩ := hall p hp
    exact ⟨p, hp, (deleteFile_mem_tableActions_iff du dh dd exec p.1 p.2 f hnd hlen).mp hmem⟩
  · rintro ⟨p, hp, hsucc⟩
    obtain ⟨hnd, hlen⟩ := hall p hp
    exact ⟨p, hp, (deleteFile_mem_tableActions_iff du dh dd exec p.1 p.2 f hnd hlen).mpr hsucc⟩

theorem head_dropWhile_not (p : Char → Bool) :
    ∀ (l : List Char) (a : Char), (l.dropWhile p).head? = some a → p a = false := by
  intro l
  induction l with
  | nil => intro a h; simp [List.dropWhile] at h
  | cons c rest ih =>
    intro a h
    by_cases hp : p c = true
    · rw [List.dropWhile_cons_of_pos hp] at h
      exact ih a h
    · rw [List.dropWhile_cons_of_neg hp] at h
      simp only [List.head?_cons, Option.some.injEq] at h
      rw [← h]
      exact Bool.not_eq_true _ ▸ hp

/-- The code's trimming leaves no trailing comma at all. -/
theorem trimEndCommas_no_trailing_comma (s : String) :
    (trimEndCommas s).toList.getLast? ≠ some ',' := by
  show ((s.toList.reverse.dropWhile (fun c => c = ',')).reverse).getLast? ≠ some ','
  rw [List.getLast?_reverse]
  intro h
  have := head_dropWhile_not (fun c => c = ',') s.toList.reverse ',' h
  simp at this

/-- The code's trimming removes exactly a (possibly empty) run of trailing
commas. -/
theorem trimEndCommas_decomposition (s : String) :
    ∃ k, s = trimEndCommas s ++ String.mk (List.replicate k ',') := by
  obtain ⟨data⟩ := s
  refine ⟨(data.reverse.takeWhile (fun c => c = ',')).length, ?_⟩
  show String.mk data =
    String.mk ((data.reverse.dropWhile (fun c => c = ',')).reverse ++
      List.replicate (data.reverse.takeWhile (fun c => c = ',')).length ',')
  refine congrArg String.mk ?_
  have h1 := List.takeWhile_append_dropWhile (fun c => c = ',') data.reverse
  have h2 : data = (data.reverse.dropWhile (fun c => c = ',')).reverse ++
      (data.reverse.takeWhile (fun c => c = ',')).reverse := by
    rw [← List.reverse_append, h1, List.reverse_reverse]
  have hall : ∀ b ∈ data.reverse.takeWhile (fun c => c = ','), b = ',' := by
    intro b hb
    have := List.mem_takeWhile_imp hb
    simpa using this
  have h3 : (data.reverse.takeWhile (fun c => c = ',')).reverse =
      List.replicate (data.reverse.takeWhile (fun c => c = ',')).length ',' := by
    rw [List.eq_replicate_of_mem hall, List.reverse_replicate, List.length_replicate]
  rw [← h3]
  exact h2

/-- The grouping loop propagates the first rename failure immediately:
everything before the failing event processes normally, and the whole
fold returns that rename's error. -/
theorem process_events_abort (env : PipelineEnv) (bad : NotifyEvent)
    (rest : List NotifyEvent) (err : String)
    (hacc : isAcceptedEvent env bad) (hren : env.rename bad.firstPath = .error err) :
    ∀ (pre : List NotifyEvent), (∀ e ∈ pre, noRenameAbort env e) →
    ∀ m tr, process_events env (pre ++ bad :: rest) m tr = .error err := by
  intro pre
  induction pre with
  | nil =>
    intro _ m tr
    obtain ⟨t, hc, ht⟩ := hacc
    simp only [List.nil_append, process_events, hc, if_neg ht, hren]
  | cons e pre ih =>
    intro hpre m tr
    have hprerest : ∀ x ∈ pre, noRenameAbort env x := fun x hx => hpre x (by simp [hx])
    have hne := hpre e (by simp)
    rw [List.cons_append]
    cases hc : env.classify e.firstPath with
    | error msg => simp only [process_events, hc]; exact ih hprerest m tr
    | ok table =>
      by_cases htab : table = ""
      · simp only [process_events, hc, if_pos htab]
        exact ih hprerest m tr
      · obtain ⟨r, hr⟩ := hne table hc htab
        cases hw : env.writeMetadata r with
        | ok md =>
          simp only [process_events, hc, if_neg htab, hr, hw]
          exact ih hprerest _ _
        | error msg =>
          simp only [process_events, hc, if_neg htab, hr, hw]
          exact ih hprerest _ _

/-! ## Claims -/

/-- C9: a path whose file no longer exists at classification time yields
the empty (no-table) result without raising an error, and the event then
contributes nothing to the cycle: no rename, no metadata write, no
table-batch entry, hence no transfer of that file. -/
theorem c9_vanished_file_silently_skipped (fl : String → Option String) (reg : Registry)
    (env : PipelineEnv) (e : NotifyEvent) (rest : List NotifyEvent)
    (m : RsyncMap) (tr : List PipeAction)
    (hcl : env.classify = fun p => Except.ok (match_col_headers fl reg p))
    (hfl : fl e.firstPath = none) :
    match_col_headers fl reg e.firstPath = "" ∧
    process_events env (e :: rest) m tr = process_events env rest m tr := by
  have h1 : match_col_headers fl reg e.firstPath = "" := by
    unfold match_col_headers
    rw [hfl]
  refine ⟨h1, ?_⟩
  simp [process_events, hcl, h1]

/-- Witness for C9 at a concrete vanished file. -/
theorem c9_vanished_file_silently_skipped_witness :
    match_col_headers (fun _ => none) [] "/d/gone.csv" = "" ∧
    process_events
        ⟨fun p => Except.ok (match_col_headers (fun _ => none) [] p),
         fun p => Except.ok p, fun p => Except.ok p⟩
        [⟨EvKind.createFile, ["/d/gone.csv"]⟩] [] [] =
      process_events
        ⟨fun p => Except.ok (match_col_headers (fun _ => none) [] p),
         fun p => Except.ok p, fun p => Except.ok p⟩
        [] [] [] :=
  c9_vanished_file_silently_skipped (fun _ => none) []
    ⟨fun p => Except.ok (match_col_headers (fun _ => none) [] p),
     fun p => Except.ok p, fun p => Except.ok p⟩
    ⟨EvKind.createFile, ["/d/gone.csv"]⟩ [] [] [] rfl rfl

/-- C10: only the first path of a filesystem notification event is ever
examined: two events agreeing on kind and first path pass the `.csv`
buffering filter identically and are classified, renamed and grouped
identically, whatever additional paths they carry. -/
theorem c10_only_first_path_examined (e e2 : NotifyEvent)
    (h1 : e.firstPath = e2.firstPath) (h2 : e.kind = e2.kind)
    (env : PipelineEnv) (rest : List NotifyEvent) (m : RsyncMap) (tr : List PipeAction) :
    isCsvEvent e = isCsvEvent e2 ∧
    process_events env (e :: rest) m tr = process_events env (e2 :: rest) m tr := by
  constructor
  · unfold isCsvEvent
    rw [h1, h2]
  · simp only [process_events, h1]

/-- Witness for C10: an event with an extra second path behaves as the
event without it. -/
theorem c10_only_first_path_examined_witness :
    isCsvEvent ⟨EvKind.createFile, ["/d/a.csv", "/d/extra.txt"]⟩ =
      isCsvEvent ⟨EvKind.createFile, ["/d/a.csv"]⟩ ∧
    process_events wEnv [⟨EvKind.createFile, ["/d/a.csv", "/d/extra.txt"]⟩] [] [] =
      process_events wEnv [⟨EvKind.createFile, ["/d/a.csv"]⟩] [] [] :=
  c10_only_first_path_examined ⟨EvKind.createFile, ["/d/a.csv", "/d/extra.txt"]⟩
    ⟨EvKind.createFile, ["/d/a.csv"]⟩ rfl rfl wEnv [] [] []

/-- C7 counterexample: a template file whose stem (`"foo"`) has no
`_template` suffix does not get skipped with a warning — the loader's
`strip_suffix("_template").unwrap()` panics, modelled by `load_headers`
returning `none`, so nothing (not even the well-formed
`orders_template`) is loaded; by itself the well-formed file loads
fine. -/
theorem c7_counterexample :
    load_headers [⟨some "foo", "a,b"⟩, ⟨some "orders_template", "id,amount"⟩] = none ∧
    load_headers [⟨some "orders_template", "id,amount"⟩] = some [("id,amount", "orders")] := by
  decide

/-- C7 amended: a template file with no derivable file name (no stem, or
a non-UTF-8 name) is skipped non-fatally, but a template file whose stem
does not end in `_template` aborts the whole registry load (a panic),
rather than being skipped. -/
theorem c7_bad_template_name_aborts_load (acc : Registry) (f : TemplateFile)
    (rest : List TemplateFile) :
    (f.stem = none → load_headers_from acc (f :: rest) = load_headers_from acc rest) ∧
    (∀ v, f.stem = some v → ¬ endsWithStr v "_template" →
      load_headers_from acc (f :: rest) = none) := by
  constructor
  · intro h
    simp only [load_headers_from, h]
  · intro v hv hns
    simp only [load_headers_from, hv, stripSuffixStr, if_neg hns]

/-- Witness for the amended C7 at concrete template files. -/
theorem c7_bad_template_name_aborts_load_witness :
    load_headers_from [] [⟨none, "x"⟩] = load_headers_from [] [] ∧
    load_headers_from [] [⟨some "foo", "x"⟩] = none :=
  ⟨(c7_bad_template_name_aborts_load [] ⟨none, "x"⟩ []).1 rfl,
   (c7_bad_template_name_aborts_load [] ⟨some "foo", "x"⟩ []).2 "foo" rfl (by decide)⟩

/-- C6 counterexample: `orders.csv` is renamed to
`orders_20240101000000.csv`, and the sidecar line written for it carries
the renamed basename as its third field — not the original basename
`orders.csv` the claim requires. -/
theorem c6_counterexample :
    suffix_file_name "/data/orders.csv" "20240101000000" =
      some "/data/orders_20240101000000.csv" ∧
    create_metadata_file "2024-01-01 00:00:00" IdCmdResult.failedStatus
        "/data/orders_20240101000000.csv" =
      some ("/data/orders_20240101000000.csv.metadata",
            "2024-01-01 00:00:00,,orders_20240101000000.csv") ∧
    (((splitOnChar ',' "2024-01-01 00:00:00,,orders_20240101000000.csv".toList).map
        String.mk).getD 2 "") ≠ "orders.csv" ∧
    fileNameOf "/data/orders.csv" = "orders.csv" := by
  refine ⟨by decide, by decide, by decide, by decide⟩

/-- C6 amended: the sidecar is written next to the renamed source as
`<renamed>.metadata`, and its single line is
`<upload_time>,<username-or-empty>,<basename of the renamed file>` — the
third field is the renamed basename (timestamp suffix included), because
`create_metadata_file` receives the already renamed path. -/
theorem c6_metadata_line_uses_renamed_basename (ut u rb : String) (idr : IdCmdResult)
    (renamed : String) (hu : resolve_username idr = some u)
    (hb : fileName? renamed = some rb) :
    create_metadata_file ut idr renamed =
      some (renamed ++ ".metadata", ut ++ "," ++ u ++ "," ++ rb) := by
  unfold create_metadata_file
  rw [hu]
  simp [fileNameOf, hb]

/-- Witness for the amended C6 at a concrete renamed path. -/
theorem c6_metadata_line_uses_renamed_basename_witness :
    create_metadata_file "2024-01-01 00:00:00" (IdCmdResult.ok "alice\x0A")
        "/data/orders_20240101000000.csv" =
      some ("/data/orders_20240101000000.csv.metadata",
            "2024-01-01 00:00:00,alice,orders_20240101000000.csv") :=
  c6_metadata_line_uses_renamed_basename "2024-01-01 00:00:00" "alice"
    "orders_20240101000000.csv" (IdCmdResult.ok "alice\x0A")
    "/data/orders_20240101000000.csv" (by decide) (by decide)

/-- C3 counterexample: with registry mapping "a,b" to "t" and a first
line "a,b,,", the code strips BOTH trailing commas and classifies the
file to "t"; the once-stripped string "a,b," the claim prescribes as
lookup key has no registry entry, so the claim would demand rejection. -/
theorem c3_counterexample :
    match_col_headers (fun p => if p = "/d/x.csv" then some "a,b,," else none)
      [("a,b", "t")] "/d/x.csv" = "t" ∧
    lookupTable [("a,b", "t")] (specStripOneTrailingDelimiter "a,b,,") = none := by
  exact ⟨by decide, by decide⟩

/-- C3 amended: classification reads only the first line and strips ALL
trailing commas from it (`trim_end_matches(",")`), then looks the
resulting exact string up in the registry: a hit returns that table name
and any other first line is rejected; the trimmed key carries no
trailing comma and differs from the line only by a run of trailing
commas. -/
theorem c3_classifier_strips_all_trailing_commas (fl : String → Option String)
    (reg : Registry) (p line : String) (hfl : fl p = some line) :
    (∀ table, lookupTable reg (trimEndCommas line) = some table →
      match_col_headers fl reg p = table) ∧
    (lookupTable reg (trimEndCommas line) = none → match_col_headers fl reg p = "") ∧
    (trimEndCommas line).toList.getLast? ≠ some ',' ∧
    ∃ k, line = trimEndCommas line ++ String.mk (List.replicate k ',') := by
  refine ⟨?_, ?_, trimEndCommas_no_trailing_comma line, trimEndCommas_decomposition line⟩
  · intro table ht
    simp only [match_col_headers, hfl, ht]
  · intro ht
    simp only [match_col_headers, hfl, ht]

/-- Witness for the amended C3 at a concrete registry and first line. -/
theorem c3_classifier_strips_all_trailing_commas_witness :
    (∀ table, lookupTable [("a,b", "t")] (trimEndCommas "a,b,,") = some table →
      match_col_headers (fun _ => some "a,b,,") [("a,b", "t")] "/d/x.csv" = table) ∧
    (lookupTable [("a,b", "t")] (trimEndCommas "a,b,,") = none →
      match_col_headers (fun _ => some "a,b,,") [("a,b", "t")] "/d/x.csv" = "") ∧
    (trimEndCommas "a,b,,").toList.getLast? ≠ some ',' ∧
    ∃ k, "a,b,," = trimEndCommas "a,b,," ++ String.mk (List.replicate k ',') :=
  c3_classifier_strips_all_trailing_commas (fun _ => some "a,b,,") [("a,b", "t")]
    "/d/x.csv" "a,b,," rfl

/-- C4 counterexample: a tick whose dispatch attempt fails (the handler
hits a rename error) reports an attempted dispatch yet leaves the
pending buffer unchanged — the buffer is NOT cleared on every dispatch
attempt. -/
theorem c4_counterexample :
    watch_tick 3
      (watchHandler ⟨fun _ => Except.ok "t", fun _ => Except.error "boom",
          fun r => Except.ok r⟩ (fun _ => CmdOutcome.success) "u" "h" "/dest")
      ⟨[⟨EvKind.createFile, ["/d/a.csv"]⟩], 0⟩ RecvResult.chanEmpty 10 =
      (⟨[⟨EvKind.createFile, ["/d/a.csv"]⟩], 0⟩, true) := by
  decide

/-- C4 amended: a dispatch is attempted exactly when the elapsed time
since the last event strictly exceeds the wait threshold and the pending
buffer is non-empty; the buffer is cleared (returning the aggregator to
Idle) only when the handler reports success, while a failing attempt
leaves the state — buffer included — unchanged for a retry on the next
tick, and a tick without an attempt changes nothing beyond event
buffering. -/
theorem c4_buffer_cleared_only_on_successful_dispatch (wait : Nat)
    (handler : List NotifyEvent → Except String Unit) (s : WatchState)
    (r : RecvResult) (now : Nat) :
    ((watch_tick wait handler s r now).2 = true ↔
      (wait < now - (receive_step s r now).lastEventTime ∧
       (receive_step s r now).eventVec ≠ [])) ∧
    (∀ u, (watch_tick wait handler s r now).2 = true →
      handler (receive_step s r now).eventVec = .ok u →
      (watch_tick wait handler s r now).1.eventVec = []) ∧
    (∀ err, handler (receive_step s r now).eventVec = .error err →
      (watch_tick wait handler s r now).1 = receive_step s r now) ∧
    ((watch_tick wait handler s r now).2 = false →
      (watch_tick wait handler s r now).1 = receive_step s r now) := by
  by_cases hcond : wait < now - (receive_step s r now).lastEventTime ∧
      (receive_step s r now).eventVec ≠ []
  · have hbool : (now - (receive_step s r now).lastEventTime > wait &&
        !(receive_step s r now).eventVec.isEmpty) = true := by
      rw [Bool.and_eq_true]
      refine ⟨decide_eq_true hcond.1, ?_⟩
      cases hvec : (receive_step s r now).eventVec with
      | nil => exact absurd hvec hcond.2
      | cons a l => rfl
    have hw : watch_tick wait handler s r now =
        (match handler (receive_step s r now).eventVec with
         | .ok _ => ({ receive_step s r now with eventVec := [] }, true)
         | .error _ => (receive_step s r now, true)) := by
      simp only [watch_tick]
      rw [if_pos hbool]
    cases hh : handler (receive_step s r now).eventVec with
    | ok u =>
      rw [hh] at hw
      refine ⟨?_, ?_, ?_, ?_⟩
      · rw [hw]
        exact ⟨fun _ => hcond, fun _ => rfl⟩
      · intro v _ _
        rw [hw]
      · intro err herr
        exact Except.noConfusion herr
      · intro hfalse
        rw [hw] at hfalse
        exact absurd hfalse (by simp)
    | error err =>
      rw [hh] at hw
      refine ⟨?_, ?_, ?_, ?_⟩
      · rw [hw]
        exact ⟨fun _ => hcond, fun _ => rfl⟩
      · intro v _ hok
        exact Except.noConfusion hok
      · intro err2 _
        rw [hw]
      · intro hfalse
        rw [hw] at hfalse
        exact absurd hfalse (by simp)
  · have hbool : (now - (receive_step s r now).lastEventTime > wait &&
        !(receive_step s r now).eventVec.isEmpty) = false := by
      by_contra hne
      have htrue : (now - (receive_step s r now).lastEventTime > wait &&
          !(receive_step s r now).eventVec.isEmpty) = true := by
        cases hb : (now - (receive_step s r now).lastEventTime > wait &&
            !(receive_step s r now).eventVec.isEmpty)
        · exact absurd hb hne
        · rfl
      rw [Bool.and_eq_true] at htrue
      refine hcond ⟨of_decide_eq_true htrue.1, ?_⟩
      intro hnil
      have := htrue.2
      rw [hnil] at this
      simp at this
    have hw : watch_tick wait handler s r now = (receive_step s r now, false) := by
      simp only [watch_tick]
      rw [if_neg (by rw [hbool]; simp)]
    refine ⟨?_, ?_, ?_, ?_⟩
    · rw [hw]
      exact ⟨fun h => absurd h (by simp), fun h => absurd h hcond⟩
    · intro v hv _
      rw [hw] at hv
      exact absurd hv (by simp)
    · intro err _
      rw [hw]
    · intro _
      rw [hw]

/-- Witness for the amended C4: a tick whose handler succeeds does clear
the buffer. -/
theorem c4_buffer_cleared_only_on_successful_dispatch_witness :
    (watch_tick 2 (fun _ => Except.ok ())
      ⟨[⟨EvKind.createFile, ["/d/a.csv"]⟩], 0⟩ RecvResult.chanEmpty 5).1.eventVec = [] :=
  (c4_buffer_cleared_only_on_successful_dispatch 2 (fun _ => Except.ok ())
    ⟨[⟨EvKind.createFile, ["/d/a.csv"]⟩], 0⟩ RecvResult.chanEmpty 5).2.1 ()
    (by decide) rfl

/-- Witness for C1: with table `t1` succeeding and `t2` failing, `t1`'s
source file is deleted and `t2`'s is not. -/
theorem c1_files_deleted_iff_transfer_success_witness :
    RsyncAction.deleteFile "/d/a.csv.r" ∈ run_rsync wExec wMap "u" "h" "/dest" ∧
    RsyncAction.deleteFile "/d/b.csv.r" ∉ run_rsync wExec wMap "u" "h" "/dest" := by
  constructor
  · exact (c1_files_deleted_iff_transfer_success wExec wMap "u" "h" "/dest" (by decide)
      "/d/a.csv.r").mpr
      ⟨("t1", ⟨["/d/a.csv.r", "/d/c.csv.r"], ["/d/a.csv.r.metadata", "/d/c.csv.r.metadata"]⟩),
       by decide, by decide, Or.inl (by decide)⟩
  · intro hmem
    obtain ⟨p, hp, hsucc, hfm⟩ := (c1_files_deleted_iff_transfer_success wExec wMap
      "u" "h" "/dest" (by decide) "/d/b.csv.r").mp hmem
    simp only [wMap, List.mem_cons, List.not_mem_nil, or_false] at hp
    rcases hp with rfl | rfl
    · exact absurd hfm (by decide)
    · exact absurd hsucc (by decide)

/-- C5 counterexample: with the first file's rename failing and a second,
fully processable file in the same batch, the handler aborts with the
rename error: the second file is never grouped and no transfer at all is
attempted, so processing of the rest of the batch does NOT continue. -/
theorem c5_counterexample :
    handle_csv_file_event wEnvRenameFail (fun _ => CmdOutcome.success) "u" "h" "/dest"
      [⟨EvKind.createFile, ["/d/a.csv"]⟩, ⟨EvKind.createFile, ["/d/b.csv"]⟩] =
      Except.error "rename failed" := by
  decide

/-- C5 amended: a failure while renaming a file aborts the processing of
the whole batch, not of that file only: provided the earlier events of
the batch do not themselves hit a rename failure, `handle_csv_file_event`
propagates the failing rename's error immediately, so the remaining
files are left unprocessed and no transfer is attempted in that cycle
(the watch loop then keeps the pending buffer). -/
theorem c5_rename_failure_aborts_whole_batch (env : PipelineEnv)
    (pre : List NotifyEvent) (bad : NotifyEvent) (rest : List NotifyEvent)
    (err : String) (exec : String → CmdOutcome) (du dh dd : String)
    (hpre : ∀ e ∈ pre, noRenameAbort env e)
    (hacc : isAcceptedEvent env bad)
    (hren : env.rename bad.firstPath = .error err) :
    process_events env (pre ++ bad :: rest) [] [] = .error err ∧
    handle_csv_file_event env exec du dh dd (pre ++ bad :: rest) = .error err := by
  have h1 := process_events_abort env bad rest err hacc hren pre hpre [] []
  refine ⟨h1, ?_⟩
  unfold handle_csv_file_event
  rw [h1]

/-- Witness for the amended C5: an aborting batch with one healthy file
before the failing one. -/
theorem c5_rename_failure_aborts_whole_batch_witness :
    process_events wEnvRenameFail
      ([⟨EvKind.createFile, ["/d/z.csv"]⟩] ++ ⟨EvKind.createFile, ["/d/a.csv"]⟩ ::
        [⟨EvKind.createFile, ["/d/b.csv"]⟩]) [] [] = .error "rename failed" ∧
    handle_csv_file_event wEnvRenameFail (fun _ => CmdOutcome.success) "u" "h" "/dest"
      ([⟨EvKind.createFile, ["/d/z.csv"]⟩] ++ ⟨EvKind.createFile, ["/d/a.csv"]⟩ ::
        [⟨EvKind.createFile, ["/d/b.csv"]⟩]) = .error "rename failed" := by
  refine c5_rename_failure_aborts_whole_batch wEnvRenameFail
    [⟨EvKind.createFile, ["/d/z.csv"]⟩] ⟨EvKind.createFile, ["/d/a.csv"]⟩
    [⟨EvKind.createFile, ["/d/b.csv"]⟩] "rename failed" (fun _ => CmdOutcome.success)
    "u" "h" "/dest" ?_ ?_ ?_
  · intro e he t hc ht
    rw [List.mem_singleton] at he
    subst he
    exact ⟨"/d/z.csv" ++ ".r", by decide⟩
  · exact ⟨"t", by decide, by decide⟩
  · decide

/-- C2: when a batch folds into its table groups without aborting, the
dispatcher issues exactly one rsync invocation per distinct accepted
table (M invocations for M distinct tables), and the grouping partitions
the accepted files: the concatenation of all tables' source-file lists
is a permutation of the accepted files' renamed paths, and each table's
entry holds exactly the accepted files classified to it, in order, so no
accepted file is omitted or duplicated across tables. -/
theorem c2_one_invocation_per_table_and_partition (env : PipelineEnv)
    (events : List NotifyEvent) (exec : String → CmdOutcome) (du dh dd : String)
    (m : RsyncMap) (tr : List PipeAction)
    (h : process_events env events [] [] = .ok (m, tr)) :
    (run_rsync exec m du dh dd).countP isInvoke =
      ((entsOf env events).map (fun x => x.1)).dedup.length ∧
    List.Perm (m.flatMap (fun p => p.2.src_files))
      ((entsOf env events).map (fun x => x.2.1)) ∧
    (∀ t, lookupE m t = ⟨tableSrc (entsOf env events) t, tableMd (entsOf env events) t⟩) := by
  have hlookE : ∀ t, lookupE m t =
      ⟨tableSrc (entsOf env events) t, tableMd (entsOf env events) t⟩ := by
    intro t
    have hl := process_events_lookup env events [] [] m tr h t
    simpa [lookupE, lookupTable] using hl
  have hkeys := process_events_keys env events [] [] m tr h
  have hkeys2 : keysOf m = ((entsOf env events).map (fun x => x.1)).foldl addKey [] := by
    simpa [keysOf] using hkeys
  have hnd : (keysOf m).Nodup := by
    rw [hkeys2]
    exact nodup_foldl_addKey _ [] (by simp)
  have hmem : ∀ x, x ∈ keysOf m ↔ x ∈ (entsOf env events).map (fun y => y.1) := by
    intro x
    rw [hkeys2, mem_foldl_addKey]
    simp
  refine ⟨?_, ?_, hlookE⟩
  · rw [countP_isInvoke_run_rsync]
    have hperm : List.Perm (keysOf m) ((entsOf env events).map (fun x => x.1)).dedup := by
      refine (List.perm_ext_iff_of_nodup hnd (List.nodup_dedup _)).mpr ?_
      intro a
      rw [hmem a, List.mem_dedup]
    have hlen := hperm.length_eq
    simpa [keysOf] using hlen
  · have hentry : ∀ p ∈ m, p.2.src_files = tableSrc (entsOf env events) p.1 := by
      intro p hp
      have hl : lookupTable m p.1 = some p.2 :=
        lookupTable_eq_some_of_mem m p.1 p.2 hnd hp
      have he := hlookE p.1
      rw [lookupE, hl] at he
      simp only [Option.getD_some] at he
      rw [he]
    have hflat : m.flatMap (fun p => p.2.src_files) =
        (keysOf m).flatMap (fun t => tableSrc (entsOf env events) t) := by
      rw [List.flatMap_def, List.flatMap_def]
      refine congrArg List.flatten ?_
      rw [keysOf, List.map_map]
      exact List.map_congr_left (fun p hp => hentry p hp)
    rw [hflat]
    have hcover : ∀ x ∈ entsOf env events, x.1 ∈ keysOf m := by
      intro x hx
      rw [hmem x.1]
      exact List.mem_map_of_mem (fun y => y.1) hx
    exact flatMap_filterKey_perm (fun x => x.2.1) (keysOf m) (entsOf env events) hnd hcover

/-- Witness for C2 at the concrete three-file, two-table batch. -/
theorem c2_one_invocation_per_table_and_partition_witness :
    (run_rsync wExec wMap "u" "h" "/dest").countP isInvoke =
      ((entsOf wEnv wEvents).map (fun x => x.1)).dedup.length ∧
    List.Perm (wMap.flatMap (fun p => p.2.src_files))
      ((entsOf wEnv wEvents).map (fun x => x.2.1)) ∧
    (∀ t, lookupE wMap t =
      ⟨tableSrc (entsOf wEnv wEvents) t, tableMd (entsOf wEnv wEvents) t⟩) :=
  c2_one_invocation_per_table_and_partition wEnv wEvents wExec "u" "h" "/dest"
    wMap wTrace (by decide)

/-- C8: a file whose rename succeeded but whose sidecar creation failed
is not excluded: it enters its table's batch paired with the empty
metadata path, and the rsync invocation for that table is still issued
with that file among its sources. -/
theorem c8_metadata_failure_keeps_file_in_batch (env : PipelineEnv)
    (events : List NotifyEvent) (exec : String → CmdOutcome) (du dh dd : String)
    (m : RsyncMap) (tr : List PipeAction) (e : NotifyEvent) (t r err : String)
    (h : process_events env events [] [] = .ok (m, tr))
    (he : e ∈ events) (hc : env.classify e.firstPath = .ok t) (ht : t ≠ "")
    (hr : env.rename e.firstPath = .ok r) (hw : env.writeMetadata r = .error err) :
    ∃ entry : TableEntry, lookupTable m t = some entry ∧
      (r, "") ∈ entry.src_files.zip entry.metadata_files ∧
      r ∈ entry.src_files ∧
      RsyncAction.invoke t
        (rsync_command du dh dd t entry.src_files entry.metadata_files) ∈
        run_rsync exec m du dh dd := by
  have hae : acceptedEntry env e = some (t, r, "") := by
    unfold acceptedEntry
    simp only [hc, if_neg ht, hr, hw]
  have hment : (t, r, "") ∈ entsOf env events := List.mem_filterMap.mpr ⟨e, he, hae⟩
  have hE : lookupE m t = ⟨tableSrc (entsOf env events) t, tableMd (entsOf env events) t⟩ := by
    have hl := process_events_lookup env events [] [] m tr h t
    simpa [lookupE, lookupTable] using hl
  have hkeys := process_events_keys env events [] [] m tr h
  have htk : t ∈ keysOf m := by
    have hkeys2 : keysOf m = ((entsOf env events).map (fun x => x.1)).foldl addKey [] := by
      simpa [keysOf] using hkeys
    rw [hkeys2, mem_foldl_addKey]
    exact Or.inr (List.mem_map_of_mem (fun x => x.1) hment)
  obtain ⟨entry, hentry⟩ : ∃ entry, lookupTable m t = some entry := by
    cases hlt : lookupTable m t with
    | none =>
      have := (lookupTable_eq_none_iff m t).mp hlt
      exact absurd htk (by simpa [keysOf] using this)
    | some entry => exact ⟨entry, rfl⟩
  have hEq : entry = ⟨tableSrc (entsOf env events) t, tableMd (entsOf env events) t⟩ := by
    have := hE
    rw [lookupE, hentry] at this
    simpa using this
  subst hEq
  refine ⟨_, hentry, ?_, ?_, ?_⟩
  · show (r, "") ∈ (tableSrc (entsOf env events) t).zip (tableMd (entsOf env events) t)
    unfold tableSrc tableMd
    rw [List.zip_map']
    exact List.mem_map.mpr ⟨(t, r, ""), List.mem_filter.mpr ⟨hment, by simp⟩, rfl⟩
  · show r ∈ tableSrc (entsOf env events) t
    unfold tableSrc
    exact List.mem_map.mpr ⟨(t, r, ""), List.mem_filter.mpr ⟨hment, by simp⟩, rfl⟩
  · exact invoke_mem_run_rsync exec m du dh dd t _
      (mem_of_lookupTable_eq_some m t _ hentry)

/-- Witness for C8: the `b.csv` file of the concrete batch, whose
sidecar write fails, still reaches table `t2`'s invocation. -/
theorem c8_metadata_failure_keeps_file_in_batch_witness :
    ∃ entry : TableEntry, lookupTable wMap "t2" = some entry ∧
      ("/d/b.csv.r", "") ∈ entry.src_files.zip entry.metadata_files ∧
      "/d/b.csv.r" ∈ entry.src_files ∧
      RsyncAction.invoke "t2"
        (rsync_command "u" "h" "/dest" "t2" entry.src_files entry.metadata_files) ∈
        run_rsync wExec wMap "u" "h" "/dest" :=
  c8_metadata_failure_keeps_file_in_batch wEnv wEvents wExec "u" "h" "/dest"
    wMap wTrace ⟨EvKind.createFile, ["/d/b.csv"]⟩ "t2" "/d/b.csv.r" "mdfail"
    (by decide) (by decide) (by decide) (by decide) (by decide) (by decide)

end RsyncCsv
